import Mathlib

/-!
Shallow embedding of the importance-encoding vector transform from
`src/example/src/main.tsx` of get-convex/document-search.

The source functions operate on JavaScript `number[]`; we embed them as
functions on `List ℝ`, idealizing IEEE floating point by real arithmetic
(the specification states its round-trip and norm properties "up to
floating-point rounding", which this idealization makes exact).

Embedded functions (names kept from the source):
  - `searchVector`               (main.tsx lines 28-33)
  - `vectorWithImportance`       (main.tsx lines 42-62)
  - `normalizeVector`            (main.tsx lines 63-69)
  - `modifyImportance`           (main.tsx lines 71-76)
  - `getImportance`              (main.tsx lines 78-80)
  - `vectorWithImportanceDimension` (main.tsx lines 82-85)
-/

/-- The inline `vector.reduce((acc, v) => acc + v * v, 0)` of
`normalizeVector` (main.tsx line 64): the sum of squares of the entries,
as a left fold exactly as in the source. -/
def sumOfSquares (v : List ℝ) : ℝ :=
  v.foldl (fun acc x => acc + x * x) 0

/-- The Euclidean magnitude `Math.sqrt(sumOfSquares)` computed at
main.tsx line 65. -/
noncomputable def euclideanNorm (v : List ℝ) : ℝ :=
  Real.sqrt (sumOfSquares v)

/-- `normalizeVector` (main.tsx lines 63-69): divides elementwise by the
Euclidean magnitude, returning all zeros when the magnitude is zero. -/
noncomputable def normalizeVector (vector : List ℝ) : List ℝ :=
  if euclideanNorm vector = 0 then vector.map (fun _ => 0)
  else vector.map (fun v => v / euclideanNorm vector)

/-- `vectorWithImportance` (main.tsx lines 42-62): drop the final dimension
if the embedding has length 4096, normalize, and append `√importance`. -/
noncomputable def vectorWithImportance (embedding : List ℝ) (importance : ℝ) :
    List ℝ :=
  let vectorToModify :=
    if embedding.length = 4096 then embedding.take 4095 else embedding
  let normalized := normalizeVector vectorToModify
  let sqrtImportance := Real.sqrt importance
  normalized ++ [sqrtImportance]

/-- `searchVector` (main.tsx lines 28-33): cap the embedding at 4095
dimensions and append a literal 0 so the weight slot is ignored. -/
def searchVector (embedding : List ℝ) : List ℝ :=
  if embedding.length = 4096 then embedding.take 4095 ++ [0]
  else embedding ++ [0]

/-- `modifyImportance` (main.tsx lines 71-76): drop the trailing importance
slot (`vector.slice(0, vector.length - 1)`) and re-encode with the new
importance. -/
noncomputable def modifyImportance (vector : List ℝ) (importance : ℝ) :
    List ℝ :=
  vectorWithImportance vector.dropLast importance

/-- `getImportance` (main.tsx lines 78-80): square of the last element,
`vector[vector.length - 1] ** 2`. -/
noncomputable def getImportance (vector : List ℝ) : ℝ :=
  (vector.getD (vector.length - 1) 0) ^ 2

/-- `vectorWithImportanceDimension` (main.tsx lines 82-85): the stored
width for a nominal embedding dimension. -/
def vectorWithImportanceDimension (dimensions : ℕ) : ℕ :=
  if dimensions = 4096 then 4096 else dimensions + 1

/-- Modelled from the spec: `DimensionCapPolicy.truncateForEncoding`
(spec section 4.2); the same truncation is inlined at main.tsx lines 29-32
and 56-57.  Used to compare the spec-side policy with the source code. -/
def truncateForEncoding (embedding : List ℝ) : List ℝ :=
  if embedding.length = 4096 then embedding.take 4095 else embedding

/-! ### Basic lemmas about the embedded definitions -/

lemma foldl_add_sq (v : List ℝ) (a : ℝ) :
    v.foldl (fun acc x => acc + x * x) a = a + (v.map (fun x => x * x)).sum := by
  induction v generalizing a with
  | nil => simp
  | cons y ys ih => simp [List.foldl_cons, ih, add_assoc]

lemma sumOfSquares_eq_sum_map (v : List ℝ) :
    sumOfSquares v = (v.map (fun x => x * x)).sum := by
  simpa [sumOfSquares] using foldl_add_sq v 0

lemma sumOfSquares_nonneg (v : List ℝ) : 0 ≤ sumOfSquares v := by
  rw [sumOfSquares_eq_sum_map]
  apply List.sum_nonneg
  intro x hx
  rcases List.mem_map.mp hx with ⟨y, _, rfl⟩
  exact mul_self_nonneg y

lemma sumOfSquares_pos (v : List ℝ) (y : ℝ) (hy : y ∈ v) (hy0 : y ≠ 0) :
    0 < sumOfSquares v := by
  rw [sumOfSquares_eq_sum_map]
  have hmem : y * y ∈ v.map (fun x => x * x) :=
    List.mem_map.mpr ⟨y, hy, rfl⟩
  have hle : y * y ≤ (v.map (fun x => x * x)).sum := by
    apply List.single_le_sum _ _ hmem
    intro x hx
    rcases List.mem_map.mp hx with ⟨z, _, rfl⟩
    exact mul_self_nonneg z
  exact lt_of_lt_of_le (mul_self_pos.mpr hy0) hle

lemma sumOfSquares_eq_zero_iff (v : List ℝ) :
    sumOfSquares v = 0 ↔ ∀ y ∈ v, y = 0 := by
  constructor
  · intro h y hy
    by_contra hy0
    exact absurd h (ne_of_gt (sumOfSquares_pos v y hy hy0))
  · intro h
    rw [sumOfSquares_eq_sum_map]
    apply List.sum_eq_zero
    intro x hx
    rcases List.mem_map.mp hx with ⟨y, hy, rfl⟩
    rw [h y hy, mul_zero]

lemma euclideanNorm_eq_zero_iff (v : List ℝ) :
    euclideanNorm v = 0 ↔ sumOfSquares v = 0 := by
  unfold euclideanNorm
  rw [Real.sqrt_eq_zero']
  constructor
  · intro h
    exact le_antisymm h (sumOfSquares_nonneg v)
  · intro h
    exact le_of_eq h

lemma normalizeVector_of_zero (v : List ℝ) (h : sumOfSquares v = 0) :
    normalizeVector v = v.map (fun _ => 0) := by
  unfold normalizeVector
  rw [if_pos ((euclideanNorm_eq_zero_iff v).mpr h)]

lemma normalizeVector_of_ne_zero (v : List ℝ) (h : sumOfSquares v ≠ 0) :
    normalizeVector v = v.map (fun y => y / euclideanNorm v) := by
  unfold normalizeVector
  rw [if_neg (fun hz => h ((euclideanNorm_eq_zero_iff v).mp hz))]

lemma normalizeVector_length (v : List ℝ) :
    (normalizeVector v).length = v.length := by
  unfold normalizeVector
  split <;> simp

lemma sumOfSquares_map_div (v : List ℝ) (m : ℝ) :
    sumOfSquares (v.map (fun y => y / m)) = sumOfSquares v / (m * m) := by
  induction v with
  | nil => simp [sumOfSquares]
  | cons y ys ih =>
    have h1 : sumOfSquares ((y :: ys).map (fun y => y / m)) =
        (y / m) * (y / m) + sumOfSquares (ys.map (fun y => y / m)) := by
      simp [sumOfSquares_eq_sum_map]
    have h2 : sumOfSquares (y :: ys) = y * y + sumOfSquares ys := by
      simp [sumOfSquares_eq_sum_map]
    rw [h1, h2, ih, add_div, div_mul_div_comm]

lemma sumOfSquares_normalize (v : List ℝ) (h : sumOfSquares v ≠ 0) :
    sumOfSquares (normalizeVector v) = 1 := by
  rw [normalizeVector_of_ne_zero v h, sumOfSquares_map_div]
  have hm : euclideanNorm v * euclideanNorm v = sumOfSquares v := by
    unfold euclideanNorm
    exact Real.mul_self_sqrt (sumOfSquares_nonneg v)
  rw [hm]
  exact div_self h

lemma normalizeVector_idem (v : List ℝ) :
    normalizeVector (normalizeVector v) = normalizeVector v := by
  by_cases h : sumOfSquares v = 0
  · rw [normalizeVector_of_zero v h]
    have hz : sumOfSquares (v.map (fun _ => (0 : ℝ))) = 0 := by
      rw [sumOfSquares_eq_zero_iff]
      intro y hy
      rcases List.mem_map.mp hy with ⟨z, _, rfl⟩
      rfl
    rw [normalizeVector_of_zero _ hz, List.map_map]
    rfl
  · have h1 : sumOfSquares (normalizeVector v) = 1 := sumOfSquares_normalize v h
    rw [normalizeVector_of_ne_zero (normalizeVector v) (by rw [h1]; norm_num)]
    unfold euclideanNorm
    rw [h1, Real.sqrt_one]
    simp

lemma getD_concat (l : List ℝ) (a d : ℝ) :
    (l ++ [a]).getD l.length d = a := by
  induction l with
  | nil => rfl
  | cons x xs ih => simp [ih]

lemma vectorWithImportance_def (e : List ℝ) (x : ℝ) :
    vectorWithImportance e x =
      normalizeVector (if e.length = 4096 then e.take 4095 else e) ++
        [Real.sqrt x] := rfl

lemma vectorWithImportance_length (e : List ℝ) (x : ℝ) :
    (vectorWithImportance e x).length =
      (if e.length = 4096 then 4095 else e.length) + 1 := by
  rw [vectorWithImportance_def, List.length_append, normalizeVector_length]
  by_cases h : e.length = 4096
  · simp [h, List.length_take]
  · simp [h]

lemma truncateForEncoding_length_ne (e : List ℝ) :
    (truncateForEncoding e).length ≠ 4096 := by
  unfold truncateForEncoding
  by_cases h : e.length = 4096
  · simp [h, List.length_take]
  · simp [h]

lemma vectorWithImportance_eq_trunc (e : List ℝ) (x : ℝ) :
    vectorWithImportance e x =
      normalizeVector (truncateForEncoding e) ++ [Real.sqrt x] := rfl

lemma truncateForEncoding_of_ne (v : List ℝ) (h : v.length ≠ 4096) :
    truncateForEncoding v = v := by
  unfold truncateForEncoding
  rw [if_neg h]

lemma searchVector_eq (e : List ℝ) :
    searchVector e = truncateForEncoding e ++ [0] := by
  unfold searchVector truncateForEncoding
  by_cases h : e.length = 4096 <;> simp [h]

lemma getImportance_concat (l : List ℝ) (a : ℝ) :
    getImportance (l ++ [a]) = a ^ 2 := by
  unfold getImportance
  have h1 : (l ++ [a]).length - 1 = l.length := by simp
  rw [h1, getD_concat]

lemma map_zero_eq_replicate (v : List ℝ) :
    v.map (fun _ => (0 : ℝ)) = List.replicate v.length 0 := by
  induction v with
  | nil => rfl
  | cons y ys ih => simp [ih, List.replicate_succ]

/-! ### Claim theorems -/

/-- C1: for every non-zero embedding `e` and every importance `x ∈ [0,1]`,
decoding the stored vector returns the importance supplied at encode time:
`getImportance (vectorWithImportance e x) = x`, since the last stored
element is `√x` and the decoder squares the last element. -/
theorem importance_roundtrip (e : List ℝ) (x : ℝ)
    (hne : ∃ y ∈ e, y ≠ 0) (hx0 : 0 ≤ x) (hx1 : x ≤ 1) :
    getImportance (vectorWithImportance e x) = x := by
  rw [vectorWithImportance_def, getImportance_concat]
  exact Real.sq_sqrt hx0

/-- Witness for C1 at the concrete non-zero embedding `[1]` and
importance `0`. -/
theorem importance_roundtrip_witness :
    getImportance (vectorWithImportance [(1 : ℝ)] 0) = 0 :=
  importance_roundtrip [(1 : ℝ)] 0 ⟨1, by simp, one_ne_zero⟩ le_rfl zero_le_one

/-- C5: `searchVector e` is the dimension-cap truncation of `e` with a
literal `0` appended, the leading portion passed through unmodified (not
normalized); in particular `searchVector [0,0] = [0,0,0]`. -/
theorem searchVector_shape :
    (∀ e : List ℝ, searchVector e = truncateForEncoding e ++ [0]) ∧
      searchVector [(0 : ℝ), 0] = [0, 0, 0] := by
  refine ⟨searchVector_eq, ?_⟩
  norm_num [searchVector]

/-- C6: stored and query vectors always have the same length:
`(vectorWithImportance e x).length = (searchVector e).length` for every
embedding `e` and every importance `x`. -/
theorem stored_query_length_eq :
    ∀ (e : List ℝ) (x : ℝ),
      (vectorWithImportance e x).length = (searchVector e).length := by
  intro e x
  rw [vectorWithImportance_length, searchVector_eq]
  unfold truncateForEncoding
  by_cases h : e.length = 4096
  · simp [h]
  · simp [h]

/-- C8: `normalizeVector` preserves length; when the Euclidean magnitude
is zero (including empty and all-zero inputs) it returns a same-length
sequence of zeros, and otherwise it divides elementwise by the magnitude;
the zero case is defined behavior, not an error. -/
theorem normalizeVector_contract (v : List ℝ) :
    (normalizeVector v).length = v.length ∧
      (euclideanNorm v = 0 →
        normalizeVector v = List.replicate v.length 0) ∧
      (euclideanNorm v ≠ 0 →
        normalizeVector v = v.map (fun y => y / euclideanNorm v)) ∧
      ((∀ y ∈ v, y = 0) →
        normalizeVector v = List.replicate v.length 0) := by
  refine ⟨normalizeVector_length v, ?_, ?_, ?_⟩
  · intro h
    rw [normalizeVector_of_zero v ((euclideanNorm_eq_zero_iff v).mp h),
      map_zero_eq_replicate]
  · intro h
    exact normalizeVector_of_ne_zero v
      (fun hz => h ((euclideanNorm_eq_zero_iff v).mpr hz))
  · intro h
    rw [normalizeVector_of_zero v ((sumOfSquares_eq_zero_iff v).mpr h),
      map_zero_eq_replicate]

/-- Witness for C8 at the concrete non-zero input `[3, 4]`, exercising the
non-zero-magnitude branch of the contract. -/
theorem normalizeVector_contract_witness :
    normalizeVector [(3 : ℝ), 4] =
      [(3 : ℝ), 4].map (fun y => y / euclideanNorm [(3 : ℝ), 4]) := by
  refine (normalizeVector_contract [(3 : ℝ), 4]).2.2.1 ?_
  rw [Ne, euclideanNorm_eq_zero_iff]
  norm_num [sumOfSquares]

/-- C9: `vectorWithImportance` performs no bounds check on the importance
and no emptiness check on the embedding: for every embedding (including
the empty one) and every real importance it returns a vector whose last
element is `√importance`. -/
theorem encode_no_validation :
    (∀ (e : List ℝ) (x : ℝ),
        (vectorWithImportance e x).getLast? = some (Real.sqrt x)) ∧
      ∀ x : ℝ, vectorWithImportance [] x = [Real.sqrt x] := by
  constructor
  · intro e x
    rw [vectorWithImportance_def]
    exact List.getLast?_concat _
  · intro x
    rw [vectorWithImportance_def]
    simp [normalizeVector]

/-- C10: query vectors always decode to zero importance:
`getImportance (searchVector e) = 0` for every embedding `e`, since
`searchVector` appends a trailing `0` and `getImportance` squares the
last element. -/
theorem query_importance_zero :
    ∀ e : List ℝ, getImportance (searchVector e) = 0 := by
  intro e
  rw [searchVector_eq, getImportance_concat]
  norm_num

/-- C4: re-weighting preserves direction: for every embedding `e` and all
importances `x1, x2 ∈ [0,1]`, the leading elements (all but the last) of
`modifyImportance (vectorWithImportance e x1) x2` equal the leading
elements of `vectorWithImportance e x2`; only the trailing importance
slot changes, because re-normalizing the already-normalized prefix is a
no-op. -/
theorem modifyImportance_preserves_direction (e : List ℝ) (x1 x2 : ℝ)
    (h10 : 0 ≤ x1) (h11 : x1 ≤ 1) (h20 : 0 ≤ x2) (h21 : x2 ≤ 1) :
    (modifyImportance (vectorWithImportance e x1) x2).dropLast =
      (vectorWithImportance e x2).dropLast := by
  unfold modifyImportance
  rw [vectorWithImportance_eq_trunc e x1, List.dropLast_concat,
    vectorWithImportance_eq_trunc _ x2, vectorWithImportance_eq_trunc e x2,
    List.dropLast_concat, List.dropLast_concat]
  rw [truncateForEncoding_of_ne _
    (by rw [normalizeVector_length]; exact truncateForEncoding_length_ne e)]
  exact normalizeVector_idem _

/-- Witness for C4 at the concrete embedding `[1, 0]` with importances
`0` and `1`. -/
theorem modifyImportance_preserves_direction_witness :
    (modifyImportance (vectorWithImportance [(1 : ℝ), 0] 0) 1).dropLast =
      (vectorWithImportance [(1 : ℝ), 0] 1).dropLast :=
  modifyImportance_preserves_direction [(1 : ℝ), 0] 0 1
    le_rfl zero_le_one zero_le_one le_rfl

/-- C7: dimension-cap boundary: for every importance `x`, an embedding of
length exactly 4096 yields a stored vector of length 4096 (not 4097),
with the last raw input dimension dropped before normalization; an
embedding of length 4095 also yields length 4096. -/
theorem dimension_cap_boundary (e : List ℝ) (x : ℝ)
    (h : e.length = 4096 ∨ e.length = 4095) :
    (vectorWithImportance e x).length = 4096 ∧
      (e.length = 4096 →
        vectorWithImportance e x =
          normalizeVector (e.take 4095) ++ [Real.sqrt x]) := by
  constructor
  · rw [vectorWithImportance_length]
    rcases h with h | h <;> simp [h]
  · intro h96
    rw [vectorWithImportance_def, if_pos h96]

/-- Witness for C7 at concrete embeddings of lengths 4096 and 4095. -/
theorem dimension_cap_boundary_witness :
    (vectorWithImportance (List.replicate 4096 (1 : ℝ)) 0).length = 4096 ∧
      (vectorWithImportance (List.replicate 4095 (1 : ℝ)) 0).length = 4096 ∧
      vectorWithImportance (List.replicate 4096 (1 : ℝ)) 0 =
        normalizeVector ((List.replicate 4096 (1 : ℝ)).take 4095) ++
          [Real.sqrt 0] :=
  ⟨(dimension_cap_boundary _ 0 (Or.inl (by rw [List.length_replicate]))).1,
    (dimension_cap_boundary _ 0 (Or.inr (by rw [List.length_replicate]))).1,
    (dimension_cap_boundary _ 0 (Or.inl (by rw [List.length_replicate]))).2
      (by rw [List.length_replicate])⟩

lemma truncateForEncoding_subset (e : List ℝ) : truncateForEncoding e ⊆ e := by
  unfold truncateForEncoding
  by_cases h : e.length = 4096
  · rw [if_pos h]
    exact List.take_subset _ _
  · rw [if_neg h]
    exact fun a ha => ha

/-- Counterexample to C2 as stated: at raw dimension `D = 4097` the code
returns a vector of length `4098`, not `min(4097, 4095) + 1 = 4096`, and
`vectorWithImportanceDimension 4097 = 4098 > 4096`, so the value is not
always at most 4096 over all natural numbers `D`. -/
theorem stored_length_cap_cex :
    vectorWithImportanceDimension 4097 = 4098 ∧
      ¬ vectorWithImportanceDimension 4097 ≤ 4096 ∧
      (vectorWithImportance (List.replicate 4097 (0 : ℝ)) 0).length = 4098 ∧
      min 4097 4095 + 1 = 4096 := by
  refine ⟨by norm_num [vectorWithImportanceDimension],
    by norm_num [vectorWithImportanceDimension], ?_, by norm_num⟩
  rw [vectorWithImportance_length, List.length_replicate]
  norm_num

/-- C2 amended: restricted to raw dimensions `D ≤ 4096` (the cap the
surrounding system relies on), the stored vector has length
`min(D, 4095) + 1`, which is at most 4096 and equals
`vectorWithImportanceDimension D`; the latter is `D` if `D = 4096` and
`D + 1` otherwise. -/
theorem stored_length_cap_amended (e : List ℝ) (x : ℝ)
    (h : e.length ≤ 4096) :
    (vectorWithImportance e x).length = min e.length 4095 + 1 ∧
      (vectorWithImportance e x).length ≤ 4096 ∧
      (vectorWithImportance e x).length =
        vectorWithImportanceDimension e.length ∧
      vectorWithImportanceDimension e.length =
        (if e.length = 4096 then e.length else e.length + 1) := by
  rw [vectorWithImportance_length]
  unfold vectorWithImportanceDimension
  by_cases h96 : e.length = 4096 <;> simp [h96] <;> omega

/-- Witness for the amended C2 at the concrete embedding `[1, 0]`. -/
theorem stored_length_cap_amended_witness :
    (vectorWithImportance [(1 : ℝ), 0] 0).length =
      min ([(1 : ℝ), 0] : List ℝ).length 4095 + 1 :=
  (stored_length_cap_amended [(1 : ℝ), 0] 0 (by norm_num)).1

/-- Counterexample to C3 as stated: the embedding consisting of 4095
zeros followed by a single 1 is non-zero, but since its length is 4096
the sole non-zero coordinate is dropped by the dimension cap, so the
leading 4095 elements of the stored vector are all zero and their
Euclidean norm is 0, not 1. -/
theorem unit_norm_prefix_cex :
    (∃ y ∈ List.replicate 4095 (0 : ℝ) ++ [1], y ≠ 0) ∧
      (List.replicate 4095 (0 : ℝ) ++ [1]).length = 4096 ∧
      euclideanNorm
          ((vectorWithImportance (List.replicate 4095 (0 : ℝ) ++ [1])
              (1 / 2)).dropLast) ≠ 1 := by
  have h1 : (List.replicate 4095 (0 : ℝ)).length = 4095 := by
    rw [List.length_replicate]
  have hlen : (List.replicate 4095 (0 : ℝ) ++ [1]).length = 4096 := by
    rw [List.length_append, h1]
    norm_num
  refine ⟨⟨1, List.mem_append_right _ (List.mem_singleton.mpr rfl),
    one_ne_zero⟩, hlen, ?_⟩
  rw [vectorWithImportance_def, if_pos hlen, List.dropLast_concat,
    List.take_left' h1]
  have hz : sumOfSquares (List.replicate 4095 (0 : ℝ)) = 0 := by
    rw [sumOfSquares_eq_zero_iff]
    intro y hy
    exact List.eq_of_mem_replicate hy
  have hz2 : sumOfSquares
      ((List.replicate 4095 (0 : ℝ)).map (fun _ => (0 : ℝ))) = 0 := by
    rw [sumOfSquares_eq_zero_iff]
    intro y hy
    rcases List.mem_map.mp hy with ⟨z, _, rfl⟩
    rfl
  rw [normalizeVector_of_zero _ hz]
  unfold euclideanNorm
  rw [hz2, Real.sqrt_zero]
  norm_num

/-- C3 amended: for every embedding `e` and importance `x ∈ [0,1]`,
whenever the dimension-capped truncation of `e` (drop the last element
when `len e = 4096`) is non-zero, the Euclidean norm of the leading
elements of the stored vector equals 1, independent of `x`; a truncation
that is all zero (in particular an all-zero input) yields an all-zero
prefix. -/
theorem unit_norm_prefix_amended (e : List ℝ) (x : ℝ)
    (hx0 : 0 ≤ x) (hx1 : x ≤ 1) :
    ((∃ y ∈ truncateForEncoding e, y ≠ 0) →
        euclideanNorm ((vectorWithImportance e x).dropLast) = 1) ∧
      ((∀ y ∈ e, y = 0) →
        (vectorWithImportance e x).dropLast =
          List.replicate (truncateForEncoding e).length 0) := by
  rw [vectorWithImportance_eq_trunc, List.dropLast_concat]
  constructor
  · rintro ⟨y, hy, hy0⟩
    unfold euclideanNorm
    rw [sumOfSquares_normalize _ (ne_of_gt (sumOfSquares_pos _ y hy hy0)),
      Real.sqrt_one]
  · intro h
    have hz : sumOfSquares (truncateForEncoding e) = 0 := by
      rw [sumOfSquares_eq_zero_iff]
      intro y hy
      exact h y (truncateForEncoding_subset e hy)
    rw [normalizeVector_of_zero _ hz, map_zero_eq_replicate]

/-- Witness for the amended C3 at the concrete non-zero embedding
`[1, 0]` with importance `1/2`. -/
theorem unit_norm_prefix_amended_witness :
    euclideanNorm ((vectorWithImportance [(1 : ℝ), 0] (1 / 2)).dropLast) = 1 :=
  (unit_norm_prefix_amended [(1 : ℝ), 0] (1 / 2) (by norm_num)
      (by norm_num)).1
    ⟨1, by simp [truncateForEncoding], one_ne_zero⟩
